import Mathlib

/-
Verification of the labeled-type core (src/rust-refactor/src/analysis/labeled_ty.rs).

The module attaches caller-defined labels to every node of a type's structural
tree.  We shallowly embed the host type representation (rustc TypeVariants) as
an inductive `Ty`, the arena-allocated labeled tree as the nested inductive
`LabeledTy`, and the operations of `LabeledTyS` / `LabeledTyCtxt` as Lean
functions.  Arena allocation (`mk`, `mk_slice`) only copies values into stable
storage, so in the embedding a node is just a constructor application.
Stateful `FnMut` callbacks are embedded as explicit state-passing functions
`Ty → σ → L × σ` (resp. `L → σ → σ`), so that invocation order and count are
observable.  Rust's panicking slice indexing `substs[idx]` is embedded as
`Option`: `none` is the index-out-of-range panic branch.
-/

namespace C2Rust

/-- Host type representation: one constructor per rustc `TypeVariants` arm
matched in `labeled_ty.rs`.  Payloads irrelevant to the module (mutability,
regions, array lengths, def-ids) are kept as inert fields; `TyAdt`/`TyFnDef`
carry the list of type arguments that `substs.types()` yields, `TyFnPtr`
carries `sig.0.inputs_and_output`, `TyTuple` its element list. -/
inductive Ty : Type where
  | TyBool
  | TyChar
  | TyInt (ity : Nat)
  | TyUint (uty : Nat)
  | TyFloat (fty : Nat)
  | TyStr
  | TyNever
  | TyAdt (adtDef : Nat) (substs : List Ty)
  | TyArray (elem : Ty) (len : Nat)
  | TySlice (elem : Ty)
  | TyRawPtr (ptrTy : Ty) (mutbl : Bool)
  | TyRef (region : Nat) (refTy : Ty) (mutbl : Bool)
  | TyFnDef (defId : Nat) (substs : List Ty)
  | TyFnPtr (inputsAndOutput : List Ty)
  | TyTuple (elems : List Ty) (defaulted : Bool)
  | TyDynamic
  | TyClosure
  | TyProjection
  | TyAnon
  | TyParam (idx : Nat)
  | TyInfer
  | TyError

/-- The struct `LabeledTyS { ty, args, label }`; `args` is the arena slice of
child trees.  Structural (value) equality of nodes is Lean `=`. -/
inductive LabeledTy (L : Type) : Type where
  | mk (ty : Ty) (args : List (LabeledTy L)) (label : L)

/-- Field accessor for `ty`. -/
def LabeledTy.ty {L : Type} : LabeledTy L → Ty
  | .mk t _ _ => t

/-- Field accessor for `args`. -/
def LabeledTy.args {L : Type} : LabeledTy L → List (LabeledTy L)
  | .mk _ a _ => a

/-- Field accessor for `label`. -/
def LabeledTy.label {L : Type} : LabeledTy L → L
  | .mk _ _ l => l

mutual

/-- The method `LabeledTyS::for_each_label`: invoke the `FnMut` callback on
this node's label, then recurse into `args` left to right.  The callback is
embedded with explicit state `σ`. -/
def LabeledTy.forEachLabel {L σ : Type} (callback : L → σ → σ) :
    LabeledTy L → σ → σ
  | .mk _ args label, s => LabeledTy.forEachLabelList callback args (callback label s)

/-- The `for &arg in self.args { arg.for_each_label(callback) }` loop. -/
def LabeledTy.forEachLabelList {L σ : Type} (callback : L → σ → σ) :
    List (LabeledTy L) → σ → σ
  | [], s => s
  | a :: rest, s =>
    LabeledTy.forEachLabelList callback rest (LabeledTy.forEachLabel callback a s)

end

mutual

/-- The method `LabeledTyCtxt::label`: build a labeled tree from a host type.
The `FnMut` labeling callback is embedded as `f : Ty → σ → L × σ`; exactly as
in the source, `f` is applied to the whole type first (`let label = f(ty)`),
and the match on `ty.sty` then decides the children.  `mk`/`mk_slice` are
arena copies, embedded as the plain constructor. -/
def LabeledTyCtxt.label {L σ : Type} (f : Ty → σ → L × σ) (ty : Ty) (s : σ) :
    LabeledTy L × σ :=
  let r := f ty s
  match ty with
  | .TyBool => (.mk ty [] r.1, r.2)
  | .TyChar => (.mk ty [] r.1, r.2)
  | .TyInt _ => (.mk ty [] r.1, r.2)
  | .TyUint _ => (.mk ty [] r.1, r.2)
  | .TyFloat _ => (.mk ty [] r.1, r.2)
  | .TyStr => (.mk ty [] r.1, r.2)
  | .TyNever => (.mk ty [] r.1, r.2)
  | .TyAdt _ substs =>
    let q := LabeledTyCtxt.labelList f substs r.2
    (.mk ty q.1 r.1, q.2)
  | .TyArray elem _ =>
    let q := LabeledTyCtxt.label f elem r.2
    (.mk ty [q.1] r.1, q.2)
  | .TySlice elem =>
    let q := LabeledTyCtxt.label f elem r.2
    (.mk ty [q.1] r.1, q.2)
  | .TyRawPtr ptrTy _ =>
    let q := LabeledTyCtxt.label f ptrTy r.2
    (.mk ty [q.1] r.1, q.2)
  | .TyRef _ refTy _ =>
    let q := LabeledTyCtxt.label f refTy r.2
    (.mk ty [q.1] r.1, q.2)
  | .TyFnDef _ substs =>
    let q := LabeledTyCtxt.labelList f substs r.2
    (.mk ty q.1 r.1, q.2)
  | .TyFnPtr inputsAndOutput =>
    let q := LabeledTyCtxt.labelList f inputsAndOutput r.2
    (.mk ty q.1 r.1, q.2)
  | .TyTuple elems _ =>
    let q := LabeledTyCtxt.labelList f elems r.2
    (.mk ty q.1 r.1, q.2)
  | .TyDynamic => (.mk ty [] r.1, r.2)
  | .TyClosure => (.mk ty [] r.1, r.2)
  | .TyProjection => (.mk ty [] r.1, r.2)
  | .TyAnon => (.mk ty [] r.1, r.2)
  | .TyParam _ => (.mk ty [] r.1, r.2)
  | .TyInfer => (.mk ty [] r.1, r.2)
  | .TyError => (.mk ty [] r.1, r.2)

/-- The `substs.types().map(|t| self.label(t, f)).collect()` iteration: label a
list of types left to right, threading the callback state. -/
def LabeledTyCtxt.labelList {L σ : Type} (f : Ty → σ → L × σ) (tys : List Ty)
    (s : σ) : List (LabeledTy L) × σ :=
  match tys with
  | [] => ([], s)
  | t :: rest =>
    let q := LabeledTyCtxt.label f t s
    let q2 := LabeledTyCtxt.labelList f rest q.2
    (q.1 :: q2.1, q2.2)

end

mutual

/-- The method `LabeledTyCtxt::subst`: on a `TyParam` node return
`substs[tp.idx]` (panicking indexing, embedded as `Option.none` when out of
range); on every other node rebuild the node with the same `ty` and `label`
and the children substituted by `subst_slice`. -/
def LabeledTyCtxt.subst {L : Type} (lty : LabeledTy L)
    (substs : List (LabeledTy L)) : Option (LabeledTy L) :=
  match lty with
  | .mk ty args label =>
    match ty with
    | .TyParam idx => substs[idx]?
    | _ =>
      match LabeledTyCtxt.substSlice args substs with
      | some newArgs => some (.mk ty newArgs label)
      | none => none

/-- The method `LabeledTyCtxt::subst_slice`: substitute into each tree of the
list in order; a panic in any element is a panic of the whole call. -/
def LabeledTyCtxt.substSlice {L : Type} (ltys : List (LabeledTy L))
    (substs : List (LabeledTy L)) : Option (List (LabeledTy L)) :=
  match ltys with
  | [] => some []
  | a :: rest =>
    match LabeledTyCtxt.subst a substs, LabeledTyCtxt.substSlice rest substs with
    | some a2, some rest2 => some (a2 :: rest2)
    | _, _ => none

end

mutual

/-- The method `LabeledTyCtxt::relabel`: rebuild the tree with the same `ty`
at every node and every label replaced by `func` of the old label.  The claims
quantify over pure label functions, so `func` is embedded pure. -/
def LabeledTyCtxt.relabel {L L2 : Type} (func : L2 → L) :
    LabeledTy L2 → LabeledTy L
  | .mk ty args label =>
    .mk ty (LabeledTyCtxt.relabelSlice func args) (func label)

/-- The method `LabeledTyCtxt::relabel_slice`: relabel each tree of the list
in order. -/
def LabeledTyCtxt.relabelSlice {L L2 : Type} (func : L2 → L) :
    List (LabeledTy L2) → List (LabeledTy L)
  | [] => []
  | a :: rest => LabeledTyCtxt.relabel func a :: LabeledTyCtxt.relabelSlice func rest

end

/-- The `type_map::Type` impl, method `sty`: returns `self.ty.sty`, the
structural kind of the node's host type (in the embedding `Ty` is the `sty`
variant data itself). -/
def LabeledTy.sty {L : Type} (t : LabeledTy L) : Ty :=
  t.ty

/-- The `type_map::Type` impl, method `num_args`: `self.args.len()`. -/
def LabeledTy.num_args {L : Type} (t : LabeledTy L) : Nat :=
  t.args.length

/-- The `type_map::Type` impl, method `arg`: `self.args[idx]`, panicking
indexing embedded as `Option`. -/
def LabeledTy.arg {L : Type} (t : LabeledTy L) (idx : Nat) : Option (LabeledTy L) :=
  t.args[idx]?

mutual

/-- Total node count of a tree: the node itself plus all transitive children. -/
def LabeledTy.size {L : Type} : LabeledTy L → Nat
  | .mk _ args _ => 1 + LabeledTy.sizeList args

/-- Total node count of a list of trees. -/
def LabeledTy.sizeList {L : Type} : List (LabeledTy L) → Nat
  | [] => 0
  | a :: rest => LabeledTy.size a + LabeledTy.sizeList rest

end

mutual

/-- Pre-order sequence of the host types of a tree's nodes: the node's own
type first, then the sequences of its children left to right. -/
def LabeledTy.preorderTys {L : Type} : LabeledTy L → List Ty
  | .mk ty args _ => ty :: LabeledTy.preorderTysList args

/-- Pre-order type sequences of a list of trees, concatenated left to right. -/
def LabeledTy.preorderTysList {L : Type} : List (LabeledTy L) → List Ty
  | [] => []
  | a :: rest => LabeledTy.preorderTys a ++ LabeledTy.preorderTysList rest

end

mutual

/-- Pre-order sequence of the labels of a tree's nodes: the node's own label
first, then the sequences of its children left to right. -/
def LabeledTy.labelsOf {L : Type} : LabeledTy L → List L
  | .mk _ args label => label :: LabeledTy.labelsOfList args

/-- Pre-order label sequences of a list of trees, concatenated left to right. -/
def LabeledTy.labelsOfList {L : Type} : List (LabeledTy L) → List L
  | [] => []
  | a :: rest => LabeledTy.labelsOf a ++ LabeledTy.labelsOfList rest

end

/-- Bare structural tree: a host type at every position together with the
child structure.  Two labeled trees have the same shape (same base type at
every position, same child counts and child order) iff their shapes are
equal. -/
inductive TyTree : Type where
  | node (ty : Ty) (children : List TyTree)

mutual

/-- The shape of a labeled tree: its base types and child structure, with the
labels erased. -/
def LabeledTy.shape {L : Type} : LabeledTy L → TyTree
  | .mk ty args _ => .node ty (LabeledTy.shapeList args)

/-- Shapes of a list of trees, in order. -/
def LabeledTy.shapeList {L : Type} : List (LabeledTy L) → List TyTree
  | [] => []
  | a :: rest => LabeledTy.shape a :: LabeledTy.shapeList rest

end

/-- Modelled from the spec: the dispatch table of structural decomposition
rules (the per-kind child lists build must mirror).  Atomic kinds have zero
children; single-argument wrappers (raw pointer, reference, fixed-size array,
slice) have exactly one child, the element type; tuples have one child per
element in order; function-pointer signatures have all parameter types
followed by the return type; algebraic types and function items have the
ordered list of generic type arguments; unsupported kinds have zero
children. -/
def Ty.specChildren : Ty → List Ty
  | .TyBool => []
  | .TyChar => []
  | .TyInt _ => []
  | .TyUint _ => []
  | .TyFloat _ => []
  | .TyStr => []
  | .TyNever => []
  | .TyAdt _ substs => substs
  | .TyArray elem _ => [elem]
  | .TySlice elem => [elem]
  | .TyRawPtr ptrTy _ => [ptrTy]
  | .TyRef _ refTy _ => [refTy]
  | .TyFnDef _ substs => substs
  | .TyFnPtr inputsAndOutput => inputsAndOutput
  | .TyTuple elems _ => elems
  | .TyDynamic => []
  | .TyClosure => []
  | .TyProjection => []
  | .TyAnon => []
  | .TyParam _ => []
  | .TyInfer => []
  | .TyError => []

mutual

/-- Every node of the tree decomposes exactly as the spec's dispatch table
prescribes: its children's base types are the spec children of its own base
type, recursively. -/
def LabeledTy.matchesSpec {L : Type} : LabeledTy L → Prop
  | .mk ty args _ =>
    args.map LabeledTy.ty = Ty.specChildren ty ∧ LabeledTy.matchesSpecList args

/-- Pointwise `matchesSpec` over a list of trees. -/
def LabeledTy.matchesSpecList {L : Type} : List (LabeledTy L) → Prop
  | [] => True
  | a :: rest => LabeledTy.matchesSpec a ∧ LabeledTy.matchesSpecList rest

end

/-- The placeholder index of a type-parameter kind, `none` for every other
kind: a discriminator used by the spec-side predicates below. -/
def Ty.paramIdx : Ty → Option Nat
  | .TyParam idx => some idx
  | _ => none

/-- An unsupported host-type kind: the final group of `TypeVariants` arms in
`LabeledTyCtxt::label` (trait object, closure, projection, opaque, type
parameter, inference variable, error). -/
def Ty.isUnsupported : Ty → Bool
  | .TyDynamic => true
  | .TyClosure => true
  | .TyProjection => true
  | .TyAnon => true
  | .TyParam _ => true
  | .TyInfer => true
  | .TyError => true
  | _ => false

mutual

/-- The tree contains a type-parameter-placeholder node somewhere. -/
def LabeledTy.hasParam {L : Type} : LabeledTy L → Bool
  | .mk ty args _ => (Ty.paramIdx ty).isSome || LabeledTy.hasParamList args

/-- Some tree of the list contains a placeholder node. -/
def LabeledTy.hasParamList {L : Type} : List (LabeledTy L) → Bool
  | [] => false
  | a :: rest => LabeledTy.hasParam a || LabeledTy.hasParamList rest

end

mutual

/-- The tree contains a placeholder node whose index is at least `n`
(i.e. out of range for an argument list of length `n`). -/
def LabeledTy.hasParamGE {L : Type} (n : Nat) : LabeledTy L → Bool
  | .mk ty args _ =>
    (match Ty.paramIdx ty with
      | some idx => decide (n ≤ idx)
      | none => false) || LabeledTy.hasParamGEList n args

/-- Some tree of the list contains a placeholder node with index at least
`n`. -/
def LabeledTy.hasParamGEList {L : Type} (n : Nat) : List (LabeledTy L) → Bool
  | [] => false
  | a :: rest => LabeledTy.hasParamGE n a || LabeledTy.hasParamGEList n rest

end

mutual

/-- Data-model invariant (spec section 3/4.2 fragment): every placeholder node
of the tree is a leaf — a placeholder is an atomic (unsupported) kind and so
always has zero children in any tree the module builds. -/
def LabeledTy.paramsAreLeaves {L : Type} : LabeledTy L → Bool
  | .mk ty args _ =>
    ((Ty.paramIdx ty).isNone || args.isEmpty) && LabeledTy.paramsAreLeavesList args

/-- Pointwise `paramsAreLeaves` over a list of trees. -/
def LabeledTy.paramsAreLeavesList {L : Type} : List (LabeledTy L) → Bool
  | [] => true
  | a :: rest => LabeledTy.paramsAreLeaves a && LabeledTy.paramsAreLeavesList rest

end

/-- Instrument a stateful labeling callback so that it additionally records,
in order, every host type it is invoked on.  The label returned at each
invocation and the underlying state thread are unchanged. -/
def traceCallback {L σ : Type} (f : Ty → σ → L × σ) :
    Ty → σ × List Ty → L × (σ × List Ty) :=
  fun ty p => ((f ty p.1).1, ((f ty p.1).2, p.2 ++ [ty]))

/-- A visiting callback that records, in order, every label it is invoked
on. -/
def collectCallback {L : Type} : L → List L → List L :=
  fun l acc => acc ++ [l]

/-- Instrument a stateful visiting callback so that it additionally records,
in order, every label it is invoked on, leaving the underlying state thread
unchanged. -/
def traceVisit {L σ : Type} (cb : L → σ → σ) : L → σ × List L → σ × List L :=
  fun l p => (cb l p.1, p.2 ++ [l])

mutual

/-- Spec-side characterization of substitution, written from the claim: a
placeholder node with index `idx` is replaced by exactly `substs[idx]` (so
`idx` must be in range; the node's children — empty for any well-formed tree,
since placeholders are leaves — are not recursed into, matching the code);
every other node keeps its base type and label, and its children are obtained
by substituting recursively, in order. -/
inductive SubstSpec {L : Type} (substs : List (LabeledTy L)) :
    LabeledTy L → LabeledTy L → Prop where
  | param (idx : Nat) (cs : List (LabeledTy L)) (label : L)
      (h : idx < substs.length) :
      SubstSpec substs (.mk (.TyParam idx) cs label) (substs.get ⟨idx, h⟩)
  | node (ty : Ty) (label : L) (cs rs : List (LabeledTy L))
      (hty : ∀ idx, ty ≠ .TyParam idx)
      (hch : SubstSpecList substs cs rs) :
      SubstSpec substs (.mk ty cs label) (.mk ty rs label)

/-- In-order pointwise lifting of `SubstSpec` to child lists. -/
inductive SubstSpecList {L : Type} (substs : List (LabeledTy L)) :
    List (LabeledTy L) → List (LabeledTy L) → Prop where
  | nil : SubstSpecList substs [] []
  | cons (a b : LabeledTy L) (cs rs : List (LabeledTy L))
      (h1 : SubstSpec substs a b) (h2 : SubstSpecList substs cs rs) :
      SubstSpecList substs (a :: cs) (b :: rs)

end

/-- Example argument tree: an `i32` leaf labeled 5. -/
def exArgInt : LabeledTy Nat :=
  .mk (.TyInt 32) [] 5

/-- Example tree: a one-parameter ADT `Wrapper<T0>` whose single child is the
placeholder of index 0. -/
def exWrap : LabeledTy Nat :=
  .mk (.TyAdt 0 [.TyParam 0]) [.mk (.TyParam 0) [] 1] 0

/-- The expected result of substituting `[exArgInt]` into `exWrap`. -/
def exWrapSub : LabeledTy Nat :=
  .mk (.TyAdt 0 [.TyParam 0]) [exArgInt] 0

/-- Example tree: `Wrapper<T2>` — its placeholder index 2 is out of range for
a one-element argument list. -/
def exWrapHigh : LabeledTy Nat :=
  .mk (.TyAdt 0 [.TyParam 2]) [.mk (.TyParam 2) [] 1] 0

/-- Example placeholder-free tree: `*const i32` labeled 4 over a leaf
labeled 5. -/
def exNoParam : LabeledTy Nat :=
  .mk (.TyRawPtr (.TyInt 32) false) [exArgInt] 4

/-- Example argument tree that itself contains a placeholder: a reference to
the placeholder of index 3. -/
def exArgWithParam : LabeledTy Nat :=
  .mk (.TyRef 0 (.TyParam 3) true) [.mk (.TyParam 3) [] 9] 8

mutual

/-- The stateful `for_each_label` traversal is the left fold of the callback
over the pre-order label sequence. -/
theorem LabeledTy.forEachLabel_eq_foldl {L σ : Type} (cb : L → σ → σ) :
    ∀ (t : LabeledTy L) (s : σ),
      LabeledTy.forEachLabel cb t s =
        (LabeledTy.labelsOf t).foldl (fun s l => cb l s) s
  | .mk ty args label, s => by
    simp only [LabeledTy.forEachLabel, LabeledTy.labelsOf, List.foldl_cons]
    exact LabeledTy.forEachLabelList_eq_foldl cb args (cb label s)

/-- List version of `forEachLabel_eq_foldl`. -/
theorem LabeledTy.forEachLabelList_eq_foldl {L σ : Type} (cb : L → σ → σ) :
    ∀ (ts : List (LabeledTy L)) (s : σ),
      LabeledTy.forEachLabelList cb ts s =
        (LabeledTy.labelsOfList ts).foldl (fun s l => cb l s) s
  | [], s => rfl
  | a :: rest, s => by
    simp only [LabeledTy.forEachLabelList, LabeledTy.labelsOfList, List.foldl_append]
    rw [LabeledTy.forEachLabel_eq_foldl cb a s]
    exact LabeledTy.forEachLabelList_eq_foldl cb rest _

end

mutual

/-- The pre-order label sequence has one entry per node. -/
theorem LabeledTy.labelsOf_length {L : Type} :
    ∀ t : LabeledTy L, (LabeledTy.labelsOf t).length = LabeledTy.size t
  | .mk ty args label => by
    simp only [LabeledTy.labelsOf, LabeledTy.size, List.length_cons]
    rw [LabeledTy.labelsOfList_length args]
    omega

/-- List version of `labelsOf_length`. -/
theorem LabeledTy.labelsOfList_length {L : Type} :
    ∀ ts : List (LabeledTy L),
      (LabeledTy.labelsOfList ts).length = LabeledTy.sizeList ts
  | [] => rfl
  | a :: rest => by
    simp only [LabeledTy.labelsOfList, LabeledTy.sizeList, List.length_append]
    rw [LabeledTy.labelsOf_length a, LabeledTy.labelsOfList_length rest]

end

mutual

/-- The pre-order type sequence has one entry per node. -/
theorem LabeledTy.preorderTys_length {L : Type} :
    ∀ t : LabeledTy L, (LabeledTy.preorderTys t).length = LabeledTy.size t
  | .mk ty args label => by
    simp only [LabeledTy.preorderTys, LabeledTy.size, List.length_cons]
    rw [LabeledTy.preorderTysList_length args]
    omega

/-- List version of `preorderTys_length`. -/
theorem LabeledTy.preorderTysList_length {L : Type} :
    ∀ ts : List (LabeledTy L),
      (LabeledTy.preorderTysList ts).length = LabeledTy.sizeList ts
  | [] => rfl
  | a :: rest => by
    simp only [LabeledTy.preorderTysList, LabeledTy.sizeList, List.length_append]
    rw [LabeledTy.preorderTys_length a, LabeledTy.preorderTysList_length rest]

end

mutual

/-- Running `label` with an invocation-recording version of the callback
produces the same tree and the same final callback state as the plain run,
and appends to the record exactly the pre-order type sequence of the
resulting tree. -/
theorem LabeledTyCtxt.label_traceCallback {L σ : Type} (f : Ty → σ → L × σ) :
    ∀ (ty : Ty) (s : σ) (log : List Ty),
      LabeledTyCtxt.label (traceCallback f) ty (s, log) =
        ((LabeledTyCtxt.label f ty s).1,
          ((LabeledTyCtxt.label f ty s).2,
            log ++ LabeledTy.preorderTys (LabeledTyCtxt.label f ty s).1))
  | .TyBool, s, log => by
    simp [LabeledTyCtxt.label, traceCallback, LabeledTy.preorderTys,
      LabeledTy.preorderTysList]
  | .TyChar, s, log => by
    simp [LabeledTyCtxt.label, traceCallback, LabeledTy.preorderTys,
      LabeledTy.preorderTysList]
  | .TyInt _, s, log => by
    simp [LabeledTyCtxt.label, traceCallback, LabeledTy.preorderTys,
      LabeledTy.preorderTysList]
  | .TyUint _, s, log => by
    simp [LabeledTyCtxt.label, traceCallback, LabeledTy.preorderTys,
      LabeledTy.preorderTysList]
  | .TyFloat _, s, log => by
    simp [LabeledTyCtxt.label, traceCallback, LabeledTy.preorderTys,
      LabeledTy.preorderTysList]
  | .TyStr, s, log => by
    simp [LabeledTyCtxt.label, traceCallback, LabeledTy.preorderTys,
      LabeledTy.preorderTysList]
  | .TyNever, s, log => by
    simp [LabeledTyCtxt.label, traceCallback, LabeledTy.preorderTys,
      LabeledTy.preorderTysList]
  | .TyAdt d substs, s, log => by
    simp only [LabeledTyCtxt.label, traceCallback]
    rw [LabeledTyCtxt.labelList_traceCallback f substs]
    simp [LabeledTy.preorderTys]
  | .TyArray elem len, s, log => by
    simp only [LabeledTyCtxt.label, traceCallback]
    rw [LabeledTyCtxt.label_traceCallback f elem]
    simp [LabeledTy.preorderTys, LabeledTy.preorderTysList]
  | .TySlice elem, s, log => by
    simp only [LabeledTyCtxt.label, traceCallback]
    rw [LabeledTyCtxt.label_traceCallback f elem]
    simp [LabeledTy.preorderTys, LabeledTy.preorderTysList]
  | .TyRawPtr ptrTy mutbl, s, log => by
    simp only [LabeledTyCtxt.label, traceCallback]
    rw [LabeledTyCtxt.label_traceCallback f ptrTy]
    simp [LabeledTy.preorderTys, LabeledTy.preorderTysList]
  | .TyRef region refTy mutbl, s, log => by
    simp only [LabeledTyCtxt.label, traceCallback]
    rw [LabeledTyCtxt.label_traceCallback f refTy]
    simp [LabeledTy.preorderTys, LabeledTy.preorderTysList]
  | .TyFnDef d substs, s, log => by
    simp only [LabeledTyCtxt.label, traceCallback]
    rw [LabeledTyCtxt.labelList_traceCallback f substs]
    simp [LabeledTy.preorderTys]
  | .TyFnPtr inputsAndOutput, s, log => by
    simp only [LabeledTyCtxt.label, traceCallback]
    rw [LabeledTyCtxt.labelList_traceCallback f inputsAndOutput]
    simp [LabeledTy.preorderTys]
  | .TyTuple elems defaulted, s, log => by
    simp only [LabeledTyCtxt.label, traceCallback]
    rw [LabeledTyCtxt.labelList_traceCallback f elems]
    simp [LabeledTy.preorderTys]
  | .TyDynamic, s, log => by
    simp [LabeledTyCtxt.label, traceCallback, LabeledTy.preorderTys,
      LabeledTy.preorderTysList]
  | .TyClosure, s, log => by
    simp [LabeledTyCtxt.label, traceCallback, LabeledTy.preorderTys,
      LabeledTy.preorderTysList]
  | .TyProjection, s, log => by
    simp [LabeledTyCtxt.label, traceCallback, LabeledTy.preorderTys,
      LabeledTy.preorderTysList]
  | .TyAnon, s, log => by
    simp [LabeledTyCtxt.label, traceCallback, LabeledTy.preorderTys,
      LabeledTy.preorderTysList]
  | .TyParam idx, s, log => by
    simp [LabeledTyCtxt.label, traceCallback, LabeledTy.preorderTys,
      LabeledTy.preorderTysList]
  | .TyInfer, s, log => by
    simp [LabeledTyCtxt.label, traceCallback, LabeledTy.preorderTys,
      LabeledTy.preorderTysList]
  | .TyError, s, log => by
    simp [LabeledTyCtxt.label, traceCallback, LabeledTy.preorderTys,
      LabeledTy.preorderTysList]

/-- List version of `label_traceCallback`. -/
theorem LabeledTyCtxt.labelList_traceCallback {L σ : Type} (f : Ty → σ → L × σ) :
    ∀ (tys : List Ty) (s : σ) (log : List Ty),
      LabeledTyCtxt.labelList (traceCallback f) tys (s, log) =
        ((LabeledTyCtxt.labelList f tys s).1,
          ((LabeledTyCtxt.labelList f tys s).2,
            log ++ LabeledTy.preorderTysList (LabeledTyCtxt.labelList f tys s).1))
  | [], s, log => by
    simp [LabeledTyCtxt.labelList, LabeledTy.preorderTysList]
  | t :: rest, s, log => by
    simp only [LabeledTyCtxt.labelList]
    rw [LabeledTyCtxt.label_traceCallback f t]
    rw [LabeledTyCtxt.labelList_traceCallback f rest]
    simp [LabeledTy.preorderTysList]

end

mutual

/-- Running `for_each_label` with an invocation-recording version of the
callback produces the same final callback state as the plain run and appends
to the record exactly the pre-order label sequence of the tree. -/
theorem LabeledTy.forEachLabel_traceVisit {L σ : Type} (cb : L → σ → σ) :
    ∀ (t : LabeledTy L) (s : σ) (log : List L),
      LabeledTy.forEachLabel (traceVisit cb) t (s, log) =
        (LabeledTy.forEachLabel cb t s, log ++ LabeledTy.labelsOf t)
  | .mk ty args label, s, log => by
    simp only [LabeledTy.forEachLabel, traceVisit]
    rw [LabeledTy.forEachLabelList_traceVisit cb args]
    simp [LabeledTy.labelsOf]

/-- List version of `forEachLabel_traceVisit`. -/
theorem LabeledTy.forEachLabelList_traceVisit {L σ : Type} (cb : L → σ → σ) :
    ∀ (ts : List (LabeledTy L)) (s : σ) (log : List L),
      LabeledTy.forEachLabelList (traceVisit cb) ts (s, log) =
        (LabeledTy.forEachLabelList cb ts s, log ++ LabeledTy.labelsOfList ts)
  | [], s, log => by
    simp [LabeledTy.forEachLabelList, LabeledTy.labelsOfList]
  | a :: rest, s, log => by
    simp only [LabeledTy.forEachLabelList]
    rw [LabeledTy.forEachLabel_traceVisit cb a]
    rw [LabeledTy.forEachLabelList_traceVisit cb rest]
    simp [LabeledTy.labelsOfList]

end

/-- Folding the collecting callback appends the folded list to the
accumulator. -/
theorem foldl_collectCallback {L : Type} :
    ∀ (xs acc : List L),
      xs.foldl (fun s l => collectCallback l s) acc = acc ++ xs
  | [], acc => by simp
  | x :: xs, acc => by
    rw [List.foldl_cons, foldl_collectCallback xs]
    simp [collectCallback]

/-- The discriminator returns `none` exactly for non-placeholder kinds. -/
theorem Ty.paramIdx_eq_none_iff (ty : Ty) :
    Ty.paramIdx ty = none ↔ ∀ idx, ty ≠ Ty.TyParam idx := by
  cases ty <;> simp [Ty.paramIdx]

/-- The discriminator inverts the placeholder constructor. -/
theorem Ty.paramIdx_eq_some_iff (ty : Ty) (idx : Nat) :
    Ty.paramIdx ty = some idx ↔ ty = Ty.TyParam idx := by
  cases ty <;> simp [Ty.paramIdx]

/-- Reformulation of `subst` through the placeholder discriminator: on a
placeholder node it indexes into the argument list, on every other node it
rebuilds the node over the substituted children. -/
theorem LabeledTyCtxt.subst_eq {L : Type} (ty : Ty) (cs : List (LabeledTy L))
    (label : L) (substs : List (LabeledTy L)) :
    LabeledTyCtxt.subst (.mk ty cs label) substs =
      (match Ty.paramIdx ty with
        | some idx => substs[idx]?
        | none =>
          match LabeledTyCtxt.substSlice cs substs with
          | some newArgs => some (.mk ty newArgs label)
          | none => none) := by
  cases ty <;> rfl

mutual

/-- Whenever `subst` succeeds, its result satisfies the claim's
characterization `SubstSpec`. -/
theorem LabeledTyCtxt.subst_sound {L : Type} :
    ∀ (t : LabeledTy L) (substs : List (LabeledTy L)) (r : LabeledTy L),
      LabeledTyCtxt.subst t substs = some r → SubstSpec substs t r
  | .mk ty cs label, substs, r, h => by
    rw [LabeledTyCtxt.subst_eq] at h
    cases hpi : Ty.paramIdx ty with
    | some idx =>
      rw [hpi] at h
      obtain rfl := (Ty.paramIdx_eq_some_iff ty idx).mp hpi
      obtain ⟨hlt, rfl⟩ := List.getElem?_eq_some_iff.mp h
      simpa [List.get_eq_getElem] using @SubstSpec.param L substs idx cs label hlt
    | none =>
      rw [hpi] at h
      have hty : ∀ idx, ty ≠ Ty.TyParam idx := (Ty.paramIdx_eq_none_iff ty).mp hpi
      cases hs : LabeledTyCtxt.substSlice cs substs with
      | none => rw [hs] at h; exact absurd h (by simp)
      | some ncs =>
        rw [hs] at h
        simp only [Option.some.injEq] at h
        exact h ▸ SubstSpec.node ty label cs ncs hty
          (LabeledTyCtxt.substSlice_sound cs substs ncs hs)

/-- List version of `subst_sound`. -/
theorem LabeledTyCtxt.substSlice_sound {L : Type} :
    ∀ (ts substs rs : List (LabeledTy L)),
      LabeledTyCtxt.substSlice ts substs = some rs → SubstSpecList substs ts rs
  | [], substs, rs, h => by
    simp only [LabeledTyCtxt.substSlice, Option.some.injEq] at h
    exact h ▸ SubstSpecList.nil
  | a :: rest, substs, rs, h => by
    simp only [LabeledTyCtxt.substSlice] at h
    cases h1 : LabeledTyCtxt.subst a substs with
    | none => rw [h1] at h; exact absurd h (by simp)
    | some b =>
      cases h2 : LabeledTyCtxt.substSlice rest substs with
      | none => rw [h1, h2] at h; exact absurd h (by simp)
      | some rs2 =>
        rw [h1, h2] at h
        simp only [Option.some.injEq] at h
        exact h ▸ SubstSpecList.cons a b rest rs2
          (LabeledTyCtxt.subst_sound a substs b h1)
          (LabeledTyCtxt.substSlice_sound rest substs rs2 h2)

end

mutual

/-- For a tree whose placeholders are leaves, `subst` hits the panic branch
exactly when the tree contains a placeholder index out of range for the
argument list. -/
theorem LabeledTyCtxt.subst_none_iff {L : Type} :
    ∀ (t : LabeledTy L) (substs : List (LabeledTy L)),
      LabeledTy.paramsAreLeaves t = true →
        (LabeledTyCtxt.subst t substs = none ↔
          LabeledTy.hasParamGE substs.length t = true)
  | .mk ty cs label, substs, hp => by
    rw [LabeledTyCtxt.subst_eq]
    simp only [LabeledTy.paramsAreLeaves, Bool.and_eq_true, Bool.or_eq_true] at hp
    obtain ⟨hp1, hp2⟩ := hp
    cases hpi : Ty.paramIdx ty with
    | some idx =>
      have hcs : cs = [] := by
        rcases hp1 with h | h
        · rw [hpi] at h; simp at h
        · exact List.isEmpty_iff.mp h
      subst hcs
      simp [LabeledTy.hasParamGE, LabeledTy.hasParamGEList, hpi,
        List.getElem?_eq_none_iff]
    | none =>
      have hiff := LabeledTyCtxt.substSlice_none_iff cs substs hp2
      simp only [LabeledTy.hasParamGE, hpi, Bool.false_or]
      rw [← hiff]
      cases hs : LabeledTyCtxt.substSlice cs substs <;> simp

/-- List version of `subst_none_iff`. -/
theorem LabeledTyCtxt.substSlice_none_iff {L : Type} :
    ∀ (ts substs : List (LabeledTy L)),
      LabeledTy.paramsAreLeavesList ts = true →
        (LabeledTyCtxt.substSlice ts substs = none ↔
          LabeledTy.hasParamGEList substs.length ts = true)
  | [], substs, _ => by
    simp [LabeledTyCtxt.substSlice, LabeledTy.hasParamGEList]
  | a :: rest, substs, hp => by
    simp only [LabeledTy.paramsAreLeavesList, Bool.and_eq_true] at hp
    obtain ⟨hp1, hp2⟩ := hp
    have ha := LabeledTyCtxt.subst_none_iff a substs hp1
    have hr := LabeledTyCtxt.substSlice_none_iff rest substs hp2
    simp only [LabeledTyCtxt.substSlice, LabeledTy.hasParamGEList, Bool.or_eq_true]
    rw [← ha, ← hr]
    cases h1 : LabeledTyCtxt.subst a substs <;>
      cases h2 : LabeledTyCtxt.substSlice rest substs <;> simp

end

mutual

/-- Substitution is the identity on a tree that contains no placeholder. -/
theorem LabeledTyCtxt.subst_no_param {L : Type} :
    ∀ (t : LabeledTy L) (substs : List (LabeledTy L)),
      LabeledTy.hasParam t = false → LabeledTyCtxt.subst t substs = some t
  | .mk ty cs label, substs, h => by
    simp only [LabeledTy.hasParam, Bool.or_eq_false_iff] at h
    obtain ⟨h1, h2⟩ := h
    rw [LabeledTyCtxt.subst_eq]
    cases hpi : Ty.paramIdx ty with
    | some idx => rw [hpi] at h1; simp at h1
    | none =>
      rw [LabeledTyCtxt.substSlice_no_param cs substs h2]

/-- List version of `subst_no_param`. -/
theorem LabeledTyCtxt.substSlice_no_param {L : Type} :
    ∀ (ts substs : List (LabeledTy L)),
      LabeledTy.hasParamList ts = false →
        LabeledTyCtxt.substSlice ts substs = some ts
  | [], substs, _ => rfl
  | a :: rest, substs, h => by
    simp only [LabeledTy.hasParamList, Bool.or_eq_false_iff] at h
    obtain ⟨h1, h2⟩ := h
    simp only [LabeledTyCtxt.substSlice]
    rw [LabeledTyCtxt.subst_no_param a substs h1,
      LabeledTyCtxt.substSlice_no_param rest substs h2]

end

mutual

/-- Relabeling preserves the shape (base types and child structure). -/
theorem LabeledTyCtxt.relabel_shape {L L2 : Type} (func : L2 → L) :
    ∀ t : LabeledTy L2,
      LabeledTy.shape (LabeledTyCtxt.relabel func t) = LabeledTy.shape t
  | .mk ty args label => by
    simp only [LabeledTyCtxt.relabel, LabeledTy.shape, TyTree.node.injEq, true_and]
    exact LabeledTyCtxt.relabelSlice_shape func args

/-- List version of `relabel_shape`. -/
theorem LabeledTyCtxt.relabelSlice_shape {L L2 : Type} (func : L2 → L) :
    ∀ ts : List (LabeledTy L2),
      LabeledTy.shapeList (LabeledTyCtxt.relabelSlice func ts) =
        LabeledTy.shapeList ts
  | [] => rfl
  | a :: rest => by
    simp only [LabeledTyCtxt.relabelSlice, LabeledTy.shapeList, List.cons.injEq]
    exact ⟨LabeledTyCtxt.relabel_shape func a,
      LabeledTyCtxt.relabelSlice_shape func rest⟩

end

mutual

/-- Relabeling maps the pre-order label sequence pointwise. -/
theorem LabeledTyCtxt.relabel_labelsOf {L L2 : Type} (func : L2 → L) :
    ∀ t : LabeledTy L2,
      LabeledTy.labelsOf (LabeledTyCtxt.relabel func t) =
        (LabeledTy.labelsOf t).map func
  | .mk ty args label => by
    simp only [LabeledTyCtxt.relabel, LabeledTy.labelsOf, List.map_cons,
      List.cons.injEq, true_and]
    exact LabeledTyCtxt.relabelSlice_labelsOf func args

/-- List version of `relabel_labelsOf`. -/
theorem LabeledTyCtxt.relabelSlice_labelsOf {L L2 : Type} (func : L2 → L) :
    ∀ ts : List (LabeledTy L2),
      LabeledTy.labelsOfList (LabeledTyCtxt.relabelSlice func ts) =
        (LabeledTy.labelsOfList ts).map func
  | [] => rfl
  | a :: rest => by
    simp only [LabeledTyCtxt.relabelSlice, LabeledTy.labelsOfList, List.map_append]
    rw [LabeledTyCtxt.relabel_labelsOf func a,
      LabeledTyCtxt.relabelSlice_labelsOf func rest]

end

mutual

/-- Two relabelings compose into one relabeling with the composed label
function. -/
theorem LabeledTyCtxt.relabel_relabel {L1 L2 L3 : Type} (f : L1 → L2)
    (g : L2 → L3) :
    ∀ t : LabeledTy L1,
      LabeledTyCtxt.relabel g (LabeledTyCtxt.relabel f t) =
        LabeledTyCtxt.relabel (fun l => g (f l)) t
  | .mk ty args label => by
    simp only [LabeledTyCtxt.relabel, LabeledTy.mk.injEq, true_and, and_true]
    exact LabeledTyCtxt.relabelSlice_relabelSlice f g args

/-- List version of `relabel_relabel`. -/
theorem LabeledTyCtxt.relabelSlice_relabelSlice {L1 L2 L3 : Type} (f : L1 → L2)
    (g : L2 → L3) :
    ∀ ts : List (LabeledTy L1),
      LabeledTyCtxt.relabelSlice g (LabeledTyCtxt.relabelSlice f ts) =
        LabeledTyCtxt.relabelSlice (fun l => g (f l)) ts
  | [] => rfl
  | a :: rest => by
    simp only [LabeledTyCtxt.relabelSlice, List.cons.injEq]
    exact ⟨LabeledTyCtxt.relabel_relabel f g a,
      LabeledTyCtxt.relabelSlice_relabelSlice f g rest⟩

end

mutual

/-- Every node of a tree built by `label` carries the host type it was built
from and decomposes exactly as the spec's dispatch table prescribes. -/
theorem LabeledTyCtxt.label_matchesSpec {L σ : Type} (f : Ty → σ → L × σ) :
    ∀ (ty : Ty) (s : σ),
      (LabeledTyCtxt.label f ty s).1.ty = ty ∧
        LabeledTy.matchesSpec (LabeledTyCtxt.label f ty s).1
  | .TyBool, s => by
    simp [LabeledTyCtxt.label, LabeledTy.ty, LabeledTy.matchesSpec,
      LabeledTy.matchesSpecList, Ty.specChildren]
  | .TyChar, s => by
    simp [LabeledTyCtxt.label, LabeledTy.ty, LabeledTy.matchesSpec,
      LabeledTy.matchesSpecList, Ty.specChildren]
  | .TyInt _, s => by
    simp [LabeledTyCtxt.label, LabeledTy.ty, LabeledTy.matchesSpec,
      LabeledTy.matchesSpecList, Ty.specChildren]
  | .TyUint _, s => by
    simp [LabeledTyCtxt.label, LabeledTy.ty, LabeledTy.matchesSpec,
      LabeledTy.matchesSpecList, Ty.specChildren]
  | .TyFloat _, s => by
    simp [LabeledTyCtxt.label, LabeledTy.ty, LabeledTy.matchesSpec,
      LabeledTy.matchesSpecList, Ty.specChildren]
  | .TyStr, s => by
    simp [LabeledTyCtxt.label, LabeledTy.ty, LabeledTy.matchesSpec,
      LabeledTy.matchesSpecList, Ty.specChildren]
  | .TyNever, s => by
    simp [LabeledTyCtxt.label, LabeledTy.ty, LabeledTy.matchesSpec,
      LabeledTy.matchesSpecList, Ty.specChildren]
  | .TyAdt d substs, s => by
    obtain ⟨h1, h2⟩ := LabeledTyCtxt.labelList_matchesSpec f substs
      ((f (Ty.TyAdt d substs) s).2)
    simp [LabeledTyCtxt.label, LabeledTy.ty, LabeledTy.matchesSpec,
      Ty.specChildren, h1, h2]
  | .TyArray elem len, s => by
    obtain ⟨h1, h2⟩ := LabeledTyCtxt.label_matchesSpec f elem
      ((f (Ty.TyArray elem len) s).2)
    refine ⟨rfl, ?_⟩
    simp only [LabeledTyCtxt.label, LabeledTy.matchesSpec,
      LabeledTy.matchesSpecList, Ty.specChildren, List.map_cons, List.map_nil]
    exact ⟨by simp [h1], h2, trivial⟩
  | .TySlice elem, s => by
    obtain ⟨h1, h2⟩ := LabeledTyCtxt.label_matchesSpec f elem
      ((f (Ty.TySlice elem) s).2)
    refine ⟨rfl, ?_⟩
    simp only [LabeledTyCtxt.label, LabeledTy.matchesSpec,
      LabeledTy.matchesSpecList, Ty.specChildren, List.map_cons, List.map_nil]
    exact ⟨by simp [h1], h2, trivial⟩
  | .TyRawPtr ptrTy mutbl, s => by
    obtain ⟨h1, h2⟩ := LabeledTyCtxt.label_matchesSpec f ptrTy
      ((f (Ty.TyRawPtr ptrTy mutbl) s).2)
    refine ⟨rfl, ?_⟩
    simp only [LabeledTyCtxt.label, LabeledTy.matchesSpec,
      LabeledTy.matchesSpecList, Ty.specChildren, List.map_cons, List.map_nil]
    exact ⟨by simp [h1], h2, trivial⟩
  | .TyRef region refTy mutbl, s => by
    obtain ⟨h1, h2⟩ := LabeledTyCtxt.label_matchesSpec f refTy
      ((f (Ty.TyRef region refTy mutbl) s).2)
    refine ⟨rfl, ?_⟩
    simp only [LabeledTyCtxt.label, LabeledTy.matchesSpec,
      LabeledTy.matchesSpecList, Ty.specChildren, List.map_cons, List.map_nil]
    exact ⟨by simp [h1], h2, trivial⟩
  | .TyFnDef d substs, s => by
    obtain ⟨h1, h2⟩ := LabeledTyCtxt.labelList_matchesSpec f substs
      ((f (Ty.TyFnDef d substs) s).2)
    simp [LabeledTyCtxt.label, LabeledTy.ty, LabeledTy.matchesSpec,
      Ty.specChildren, h1, h2]
  | .TyFnPtr inputsAndOutput, s => by
    obtain ⟨h1, h2⟩ := LabeledTyCtxt.labelList_matchesSpec f inputsAndOutput
      ((f (Ty.TyFnPtr inputsAndOutput) s).2)
    simp [LabeledTyCtxt.label, LabeledTy.ty, LabeledTy.matchesSpec,
      Ty.specChildren, h1, h2]
  | .TyTuple elems defaulted, s => by
    obtain ⟨h1, h2⟩ := LabeledTyCtxt.labelList_matchesSpec f elems
      ((f (Ty.TyTuple elems defaulted) s).2)
    simp [LabeledTyCtxt.label, LabeledTy.ty, LabeledTy.matchesSpec,
      Ty.specChildren, h1, h2]
  | .TyDynamic, s => by
    simp [LabeledTyCtxt.label, LabeledTy.ty, LabeledTy.matchesSpec,
      LabeledTy.matchesSpecList, Ty.specChildren]
  | .TyClosure, s => by
    simp [LabeledTyCtxt.label, LabeledTy.ty, LabeledTy.matchesSpec,
      LabeledTy.matchesSpecList, Ty.specChildren]
  | .TyProjection, s => by
    simp [LabeledTyCtxt.label, LabeledTy.ty, LabeledTy.matchesSpec,
      LabeledTy.matchesSpecList, Ty.specChildren]
  | .TyAnon, s => by
    simp [LabeledTyCtxt.label, LabeledTy.ty, LabeledTy.matchesSpec,
      LabeledTy.matchesSpecList, Ty.specChildren]
  | .TyParam idx, s => by
    simp [LabeledTyCtxt.label, LabeledTy.ty, LabeledTy.matchesSpec,
      LabeledTy.matchesSpecList, Ty.specChildren]
  | .TyInfer, s => by
    simp [LabeledTyCtxt.label, LabeledTy.ty, LabeledTy.matchesSpec,
      LabeledTy.matchesSpecList, Ty.specChildren]
  | .TyError, s => by
    simp [LabeledTyCtxt.label, LabeledTy.ty, LabeledTy.matchesSpec,
      LabeledTy.matchesSpecList, Ty.specChildren]

/-- List version of `label_matchesSpec`. -/
theorem LabeledTyCtxt.labelList_matchesSpec {L σ : Type} (f : Ty → σ → L × σ) :
    ∀ (tys : List Ty) (s : σ),
      (LabeledTyCtxt.labelList f tys s).1.map LabeledTy.ty = tys ∧
        LabeledTy.matchesSpecList (LabeledTyCtxt.labelList f tys s).1
  | [], s => by
    simp [LabeledTyCtxt.labelList, LabeledTy.matchesSpecList]
  | t :: rest, s => by
    obtain ⟨h1, h2⟩ := LabeledTyCtxt.label_matchesSpec f t s
    obtain ⟨h3, h4⟩ := LabeledTyCtxt.labelList_matchesSpec f rest
      ((LabeledTyCtxt.label f t s).2)
    simp [LabeledTyCtxt.labelList, LabeledTy.matchesSpecList, h1, h2, h3, h4]

end

/-- Collecting the labels with `for_each_label` starting from an empty record
yields the pre-order label sequence. -/
theorem LabeledTy.forEachLabel_collect {L : Type} (t : LabeledTy L) :
    LabeledTy.forEachLabel collectCallback t [] = LabeledTy.labelsOf t := by
  rw [LabeledTy.forEachLabel_eq_foldl, foldl_collectCallback]
  simp

/-- C1: for a tree whose placeholders are leaves and whose placeholder
indices are all valid for the argument list, `subst` succeeds, and the result
satisfies the claim's characterization: every placeholder node with index `i`
is replaced by exactly `args[i]` (structural equality), and every
non-placeholder node keeps the base type and label of the corresponding input
node, its children obtained by substituting recursively in order. -/
theorem claim_subst_replaces {L : Type} (t : LabeledTy L)
    (substs : List (LabeledTy L))
    (hleaves : LabeledTy.paramsAreLeaves t = true)
    (hin : LabeledTy.hasParamGE substs.length t = false) :
    ∃ r, LabeledTyCtxt.subst t substs = some r ∧ SubstSpec substs t r := by
  cases hr : LabeledTyCtxt.subst t substs with
  | none =>
    rw [LabeledTyCtxt.subst_none_iff t substs hleaves] at hr
    simp [hin] at hr
  | some r => exact ⟨r, rfl, LabeledTyCtxt.subst_sound t substs r hr⟩

/-- Witness for C1: substituting `[i32]` into `Wrapper<T0>` at concrete
trees. -/
theorem claim_subst_replaces_witness :
    ∃ r, LabeledTyCtxt.subst exWrap [exArgInt] = some r ∧
      SubstSpec [exArgInt] exWrap r :=
  claim_subst_replaces exWrap [exArgInt] rfl rfl

/-- C2: for a tree whose placeholders are leaves (the data-model invariant),
`subst` takes the index-out-of-range branch (embedded as `none`) exactly when
the tree contains a placeholder whose index is out of range for the argument
list; equivalently, it succeeds whenever every placeholder index is valid,
and never clamps, truncates or wraps an index. -/
theorem claim_subst_bounds {L : Type} (t : LabeledTy L)
    (substs : List (LabeledTy L))
    (hleaves : LabeledTy.paramsAreLeaves t = true) :
    LabeledTyCtxt.subst t substs = none ↔
      LabeledTy.hasParamGE substs.length t = true :=
  LabeledTyCtxt.subst_none_iff t substs hleaves

/-- Witness for C2: `Wrapper<T2>` against a one-element argument list. -/
theorem claim_subst_bounds_witness :
    LabeledTyCtxt.subst exWrapHigh [exArgInt] = none ↔
      LabeledTy.hasParamGE 1 exWrapHigh = true :=
  claim_subst_bounds exWrapHigh [exArgInt] rfl

/-- C3: the tree built by `label` carries at its root the host type it was
built from, and every node of it decomposes exactly as the spec's dispatch
table (`Ty.specChildren`) prescribes: atomic kinds yield zero children,
single-argument wrappers one child built from the element type, tuples one
child per element in order, function-pointer signatures all parameter types
followed by the return type, algebraic types and function items their ordered
generic type arguments, each built recursively. -/
theorem claim_build_structure {L σ : Type} (f : Ty → σ → L × σ) (ty : Ty)
    (s : σ) :
    (LabeledTyCtxt.label f ty s).1.ty = ty ∧
      LabeledTy.matchesSpec (LabeledTyCtxt.label f ty s).1 :=
  LabeledTyCtxt.label_matchesSpec f ty s

/-- C4: running `label` with an invocation-recording wrapping of the labeling
callback leaves the built tree and the callback's state thread unchanged and
records exactly the pre-order type sequence of the resulting tree, whose
length is the node count: the callback is invoked exactly once per node, the
parent's invocation preceding every descendant's. -/
theorem claim_build_preorder_calls {L σ : Type} (f : Ty → σ → L × σ) (ty : Ty)
    (s : σ) (log : List Ty) :
    LabeledTyCtxt.label (traceCallback f) ty (s, log) =
      ((LabeledTyCtxt.label f ty s).1,
        ((LabeledTyCtxt.label f ty s).2,
          log ++ LabeledTy.preorderTys (LabeledTyCtxt.label f ty s).1)) ∧
    (LabeledTy.preorderTys (LabeledTyCtxt.label f ty s).1).length =
      LabeledTy.size (LabeledTyCtxt.label f ty s).1 :=
  ⟨LabeledTyCtxt.label_traceCallback f ty s log,
    LabeledTy.preorderTys_length _⟩

/-- C5: running `for_each_label` with an invocation-recording wrapping of the
visitor leaves the visitor's state thread unchanged and records exactly the
pre-order label sequence of the tree, whose length is the node count N: the
visitor is invoked exactly N times, once per node's label, node before its
subtrees and children left to right. -/
theorem claim_forEachLabel_preorder {L σ : Type} (visit : L → σ → σ)
    (t : LabeledTy L) (s : σ) (log : List L) :
    LabeledTy.forEachLabel (traceVisit visit) t (s, log) =
      (LabeledTy.forEachLabel visit t s, log ++ LabeledTy.labelsOf t) ∧
    (LabeledTy.labelsOf t).length = LabeledTy.size t :=
  ⟨LabeledTy.forEachLabel_traceVisit visit t s log, LabeledTy.labelsOf_length t⟩

/-- C6: `relabel` preserves the shape (base type at every position, child
counts and order), and the label sequence that `for_each_label` collects on
the result is `f` applied pointwise to the sequence it collects on the
input. -/
theorem claim_relabel_functor {L L2 : Type} (f : L → L2) (t : LabeledTy L) :
    LabeledTy.shape (LabeledTyCtxt.relabel f t) = LabeledTy.shape t ∧
    LabeledTy.forEachLabel collectCallback (LabeledTyCtxt.relabel f t) [] =
      (LabeledTy.forEachLabel collectCallback t []).map f := by
  refine ⟨LabeledTyCtxt.relabel_shape f t, ?_⟩
  rw [LabeledTy.forEachLabel_collect, LabeledTy.forEachLabel_collect,
    LabeledTyCtxt.relabel_labelsOf]

/-- C7: relabeling with `f` and then with `g` equals relabeling once with the
composition of `g` after `f`. -/
theorem claim_relabel_compose {L1 L2 L3 : Type} (f : L1 → L2) (g : L2 → L3)
    (t : LabeledTy L1) :
    LabeledTyCtxt.relabel g (LabeledTyCtxt.relabel f t) =
      LabeledTyCtxt.relabel (fun l => g (f l)) t :=
  LabeledTyCtxt.relabel_relabel f g t

/-- C8: on a host type of unsupported kind, `label` produces a leaf with zero
children whose label is still computed by invoking the callback on that type
(with the state advanced accordingly); structural recursion stops there. -/
theorem claim_unsupported_leaf {L σ : Type} (f : Ty → σ → L × σ) (ty : Ty)
    (s : σ) (h : Ty.isUnsupported ty = true) :
    LabeledTyCtxt.label f ty s = (.mk ty [] (f ty s).1, (f ty s).2) := by
  cases ty <;> simp_all [Ty.isUnsupported, LabeledTyCtxt.label]

/-- Witness for C8 at a closure type with a counting callback. -/
theorem claim_unsupported_leaf_witness :
    LabeledTyCtxt.label (fun _ (s : Nat) => (7, s + 1)) Ty.TyClosure 0 =
      (LabeledTy.mk Ty.TyClosure [] 7, 1) :=
  claim_unsupported_leaf (fun _ (s : Nat) => (7, s + 1)) Ty.TyClosure 0 rfl

/-- C9: the read-only `type_map::Type` surface agrees with the stored
structure: `sty` is the node's host type, `num_args` the length of its child
sequence, and `arg` at any valid index returns that child. -/
theorem claim_type_map_surface {L : Type} (t : LabeledTy L) (idx : Nat)
    (h : idx < LabeledTy.num_args t) :
    LabeledTy.sty t = t.ty ∧ LabeledTy.num_args t = t.args.length ∧
      LabeledTy.arg t idx = some (t.args.get ⟨idx, h⟩) := by
  refine ⟨rfl, rfl, ?_⟩
  rw [LabeledTy.arg, List.get_eq_getElem]
  exact List.getElem?_eq_getElem h

/-- Witness for C9 at a one-child node. -/
theorem claim_type_map_surface_witness :
    LabeledTy.sty exNoParam = exNoParam.ty ∧
    LabeledTy.num_args exNoParam = exNoParam.args.length ∧
    LabeledTy.arg exNoParam 0 = some exArgInt :=
  claim_type_map_surface exNoParam 0 (by decide)

/-- C10: substituting into a tree that contains no placeholder returns the
tree itself, for every argument list; and a placeholder node is replaced by
the argument tree verbatim — placeholders occurring inside an inserted
argument tree are not themselves substituted. -/
theorem claim_subst_no_placeholder :
    (∀ (L : Type) (t : LabeledTy L) (substs : List (LabeledTy L)),
        LabeledTy.hasParam t = false →
          LabeledTyCtxt.subst t substs = some t) ∧
    (∀ (L : Type) (idx : Nat) (label : L) (substs : List (LabeledTy L))
        (h : idx < substs.length),
        LabeledTyCtxt.subst (.mk (.TyParam idx) [] label) substs =
          some (substs.get ⟨idx, h⟩)) := by
  constructor
  · exact fun L t substs h => LabeledTyCtxt.subst_no_param t substs h
  · intro L idx label substs h
    simp [LabeledTyCtxt.subst, List.get_eq_getElem, List.getElem?_eq_getElem h]

/-- Witness for C10: the placeholder-free tree is returned unchanged even
against an argument list whose tree contains a placeholder, and that argument
tree is inserted verbatim when a placeholder node is substituted. -/
theorem claim_subst_no_placeholder_witness :
    LabeledTyCtxt.subst exNoParam [exArgWithParam] = some exNoParam ∧
    LabeledTyCtxt.subst (.mk (.TyParam 0) [] (0 : Nat)) [exArgWithParam] =
      some exArgWithParam :=
  ⟨claim_subst_no_placeholder.1 Nat exNoParam [exArgWithParam] rfl,
    claim_subst_no_placeholder.2 Nat 0 0 [exArgWithParam] (by decide)⟩

end C2Rust
